import Mathlib

/-!
Shallow embedding of the `alogfmt` logfmt serializer
(`src/encode.rs`, `src/util.rs`, `src/error.rs`, `src/lib.rs`).

Modelling conventions:
* a Rust `char` (Unicode scalar value) is a `Nat` code point;
* a Rust `&str` / `String` is a `List Nat` of code points;
* the output sink (`Vec<u8>` behind `io::Write`) is a `List Nat` of bytes;
  writing to a `Vec` never fails, so the `io::Error` path of `write_all`
  is dead in this instantiation;
* fallible functions return `Except Error _` or pair their result with
  an `Option Error`, keeping the partially written state on failure just
  as the Rust serializer keeps its partially filled sink.

Float serialization (`serialize_f32`/`serialize_f64` via `dtoa`) is the
one part of the dispatcher left out of the model.
-/

namespace Alogfmt

/-- Unicode scalar value predicate: exactly the values a Rust `char` can hold. -/
def isScalar (c : Nat) : Bool :=
  c < 0x110000 && !(0xD800 ≤ c && c ≤ 0xDFFF)

/-- Model of Rust `char::is_control`: the Unicode `Cc` category,
U+0000..=U+001F and U+007F..=U+009F. -/
def char_is_control (c : Nat) : Bool :=
  c ≤ 0x1F || (0x7F ≤ c && c ≤ 0x9F)

/-- Model of Rust `char::encode_utf8`: the UTF-8 byte sequence of a code point. -/
def encodeUtf8 (c : Nat) : List Nat :=
  if c < 0x80 then [c]
  else if c < 0x800 then [0xC0 + c / 0x40, 0x80 + c % 0x40]
  else if c < 0x10000 then
    [0xE0 + c / 0x1000, 0x80 + c / 0x40 % 0x40, 0x80 + c % 0x40]
  else
    [0xF0 + c / 0x40000, 0x80 + c / 0x1000 % 0x40, 0x80 + c / 0x40 % 0x40, 0x80 + c % 0x40]

/-- Uppercase hexadecimal digit of a value below 16 (helper for the
`base16` crate's uppercase encoders). -/
def hexDigitU (n : Nat) : Nat :=
  if n < 10 then 0x30 + n else 0x41 + (n - 10)

/-- Model of `base16::encode_byte_u`: one byte as two uppercase hex digits. -/
def encode_byte_u (b : Nat) : List Nat :=
  [hexDigitU (b / 16), hexDigitU (b % 16)]

/-- Model of `base16::encode_upper`: a byte slice as uppercase hex text. -/
def encode_upper (bs : List Nat) : List Nat :=
  (bs.map encode_byte_u).flatten

/-- Code points of a Lean string literal, for readable concrete examples. -/
def codes (s : String) : List Nat :=
  s.toList.map (fun ch => ch.toNat)

/-- Model of `Serializer::valid_in_ident` (encode.rs:130):
`c > ' ' && c != '=' && c != '"' && !c.is_control()`. -/
def valid_in_ident (c : Nat) : Bool :=
  0x20 < c && c != 0x3D && c != 0x22 && !char_is_control c

/-- Model of `Serializer::valid_in_string` (encode.rs:171):
`c >= ' ' && c != '"' && c != '\\' && c != '\x7F'`. -/
def valid_in_string (c : Nat) : Bool :=
  0x20 ≤ c && c != 0x22 && c != 0x5C && c != 0x7F

/-- Model of `Serializer::is_valid_escape` (encode.rs:176): the characters
that may follow a backslash in an already-escaped sequence. -/
def is_valid_escape (c : Nat) : Bool :=
  c == 0x6E || c == 0x30 || c == 0x74 || c == 0x72 ||
  c == 0x5C || c == 0x22 || c == 0x78 || c == 0x75

/-- Model of `util::as_control_picture` (util.rs:12): the Unicode control
picture (U+2400 block) of an ASCII control character, space, or DEL. -/
def as_control_picture (ch : Nat) : Option Nat :=
  match ch with
  | 0x00 => some 0x2400
  | 0x01 => some 0x2401
  | 0x02 => some 0x2402
  | 0x03 => some 0x2403
  | 0x04 => some 0x2404
  | 0x05 => some 0x2405
  | 0x06 => some 0x2406
  | 0x07 => some 0x2407
  | 0x08 => some 0x2408
  | 0x09 => some 0x2409
  | 0x0A => some 0x240A
  | 0x0B => some 0x240B
  | 0x0C => some 0x240C
  | 0x0D => some 0x240D
  | 0x0E => some 0x240E
  | 0x0F => some 0x240F
  | 0x10 => some 0x2410
  | 0x11 => some 0x2411
  | 0x12 => some 0x2412
  | 0x13 => some 0x2413
  | 0x14 => some 0x2414
  | 0x15 => some 0x2415
  | 0x16 => some 0x2416
  | 0x17 => some 0x2417
  | 0x18 => some 0x2418
  | 0x19 => some 0x2419
  | 0x1A => some 0x241A
  | 0x1B => some 0x241B
  | 0x1C => some 0x241C
  | 0x1D => some 0x241D
  | 0x1E => some 0x241E
  | 0x1F => some 0x241F
  | 0x20 => some 0x2420
  | 0x7F => some 0x2421
  | _ => none

/-- Model of `error::Error` (error.rs:19).  With a `Vec` sink the
`WriteError` variant is unreachable, and the modelled value trees never
raise a custom `SerializeError`. -/
inductive Error where
  | EmptyIdentifier : Error
  | WriteError : Error
  | SerializeError (msg : List Nat) : Error
deriving Repr, DecidableEq

/-- Model of `Serializer::write_escape` (encode.rs:188).  The `expect`
on `as_control_picture` (a panic when `None`) is modelled by returning
`none`; `write_escape_isSome` below proves that branch unreachable. -/
def write_escape (c : Nat) : Option (List Nat) :=
  if c = 0x00 then some [0x5C, 0x30]
  else if c = 0x0A then some [0x5C, 0x6E]
  else if c = 0x09 then some [0x5C, 0x74]
  else if c = 0x0D then some [0x5C, 0x72]
  else if c ≤ 0x1F || c = 0x7F then (as_control_picture c).map encodeUtf8
  else if c = 0x5C then some [0x5C, 0x5C]
  else if c = 0x22 then some [0x5C, 0x22]
  else some (encodeUtf8 c)

/-- Loop of `Serializer::write_ident` (encode.rs:143-165).  The Rust code
tracks the byte range `beg..end` of the pending run of valid characters
and flushes `ident[beg..end]` before each invalid character and once at
the end; `pending` holds the characters of that run. -/
def identLoop : List Nat → List Nat → List Nat
  | pending, [] => (pending.map encodeUtf8).flatten
  | pending, c :: rest =>
    if valid_in_ident c then identLoop (pending ++ [c]) rest
    else
      (pending.map encodeUtf8).flatten
        ++ ((encodeUtf8 c).map (fun b => 0x25 :: encode_byte_u b)).flatten
        ++ identLoop [] rest

/-- Model of `Serializer::write_ident` (encode.rs:138): empty identifiers
fail, otherwise valid characters are copied and invalid characters are
percent-encoded byte by byte. -/
def write_ident (ident : List Nat) : Except Error (List Nat) :=
  if ident.isEmpty then .error .EmptyIdentifier
  else .ok (identLoop [] ident)

/-- Per-character restatement of the identifier encoding, used to reason
about `identLoop`'s run batching. -/
def identBody : List Nat → List Nat
  | [] => []
  | c :: rest =>
    (if valid_in_ident c then encodeUtf8 c
     else ((encodeUtf8 c).map (fun b => 0x25 :: encode_byte_u b)).flatten)
      ++ identBody rest

/-- Peek of the Rust `iter.peek()` test in `write_val` (encode.rs:247-249):
does the remaining input start with a valid escape character? -/
def peekEscape (rest : List Nat) : Bool :=
  match rest with
  | c2 :: _ => is_valid_escape c2
  | [] => false

/-- Loop of `Serializer::write_val` (encode.rs:241-267), the quoted path.
As in `identLoop`, `pending` is the run of bytes the Rust code would
flush as `val[beg..end]`; a backslash followed by a valid escape
character joins the pending run and consumes both characters. -/
def valLoop : List Nat → List Nat → List Nat
  | pending, [] => (pending.map encodeUtf8).flatten
  | pending, c :: rest =>
    if valid_in_string c then valLoop (pending ++ [c]) rest
    else if c = 0x5C && peekEscape rest then
      match rest with
      | c2 :: rest2 => valLoop (pending ++ [c, c2]) rest2
      | [] => (pending.map encodeUtf8).flatten
    else
      (pending.map encodeUtf8).flatten ++ (write_escape c).getD []
        ++ valLoop [] rest

/-- Per-character restatement of the quoted-string body, used to reason
about `valLoop`'s run batching. -/
def escBody : List Nat → List Nat
  | [] => []
  | c :: rest =>
    if valid_in_string c then encodeUtf8 c ++ escBody rest
    else if c = 0x5C && peekEscape rest then
      match rest with
      | c2 :: rest2 => encodeUtf8 c ++ encodeUtf8 c2 ++ escBody rest2
      | [] => []
    else (write_escape c).getD [] ++ escBody rest

/-- Model of `Serializer::write_val` (encode.rs:216): empty values write
nothing, all-identifier values reuse `write_ident`, anything else is
quoted and escaped.  The Rust `is_ident` loop with early `break` is the
`List.all` below. -/
def write_val (val : List Nat) : Except Error (List Nat) :=
  if val.isEmpty then .ok []
  else if val.all valid_in_ident then write_ident val
  else .ok (0x22 :: valLoop [] val ++ [0x22])

instance {ε α : Type} [DecidableEq ε] [DecidableEq α] : DecidableEq (Except ε α) := fun a b =>
  match a, b with
  | .error e, .error f =>
    if h : e = f then .isTrue (by rw [h]) else .isFalse (fun hh => h (Except.error.inj hh))
  | .error _, .ok _ => .isFalse (fun hh => Except.noConfusion hh)
  | .ok _, .error _ => .isFalse (fun hh => Except.noConfusion hh)
  | .ok x, .ok y =>
    if h : x = y then .isTrue (by rw [h]) else .isFalse (fun hh => h (Except.ok.inj hh))

example : write_val (codes "ident") = .ok (codes "ident") := by decide
example : write_val (codes "a b") = .ok (codes "\"a b\"") := by decide
example : write_ident (codes "has spaces") = .ok (codes "has%20spaces") := by decide
example : write_ident (codes "!\u0000") = .ok (codes "!%00") := by decide
example : write_val (codes "this \\n \\0 \\t \\r \\\\ \\\" is already escaped")
    = .ok (codes "\"this \\n \\0 \\t \\r \\\\ \\\" is already escaped\"") := by decide
example : write_val (codes "needs escaped \n") = .ok (codes "\"needs escaped \\n\"") := by
  decide

/-- Model of the state of `Serializer<B>` (encode.rs:65) with `B = Vec<u8>`:
the sink contents, the namespace stack, and the have-written flag. -/
structure SerState where
  out : List Nat
  ns : List (List Nat)
  have_written : Bool
deriving Repr, DecidableEq

/-- Model of `Serializer::new` (encode.rs:77): empty sink, empty namespace
stack, nothing written yet. -/
def initState : SerState :=
  { out := [], ns := [], have_written := false }

/-- Loop of `Serializer::write_key` (encode.rs:286-292): write the
namespace segments joined by `.`, stopping with partial output when a
segment fails to encode. -/
def write_segs : List Nat → List (List Nat) → List Nat × Option Error
  | out, [] => (out, none)
  | out, seg :: rest =>
    match write_ident seg with
    | .error e => (out, some e)
    | .ok bs =>
      match rest with
      | [] => (out ++ bs, none)
      | _ :: _ => write_segs (out ++ bs ++ [0x2E]) rest

/-- Model of `Serializer::write_key` (encode.rs:275): write the separating
space (or set `have_written`), then the dot-joined namespace path; the
`Bool` reports whether a non-empty path was written. -/
def write_key (s : SerState) : SerState × Bool × Option Error :=
  let s1 := if s.have_written then { s with out := s.out ++ [0x20] }
            else { s with have_written := true }
  if s1.ns.isEmpty then (s1, false, none)
  else
    let p := write_segs s1.out s1.ns
    ({ s1 with out := p.1 }, true, p.2)

/-- Shared tail of the scalar `serialize_*` methods (for example
encode.rs:345-353): `if self.write_key()? { "=" }` followed by the
value's text. -/
def key_eq_then (s : SerState) (bs : List Nat) : SerState × Option Error :=
  match write_key s with
  | (s1, _, some e) => (s1, some e)
  | (s1, wrote, none) =>
    let s2 := if wrote then { s1 with out := s1.out ++ [0x3D] } else s1
    ({ s2 with out := s2.out ++ bs }, none)

/-- Model of `Serializer::serialize_bool` (encode.rs:314): `true` writes
the key alone, `false` does nothing at all. -/
def serialize_bool (s : SerState) (v : Bool) : SerState × Option Error :=
  if v then
    match write_key s with
    | (s1, _, e) => (s1, e)
  else (s, none)

/-- Model of `Serializer::serialize_str` (encode.rs:458): key, `=` when a
key was written, then the escaped value. -/
def serialize_str (s : SerState) (v : List Nat) : SerState × Option Error :=
  match write_key s with
  | (s1, _, some e) => (s1, some e)
  | (s1, wrote, none) =>
    let s2 := if wrote then { s1 with out := s1.out ++ [0x3D] } else s1
    match write_val v with
    | .error e => (s2, some e)
    | .ok bs => ({ s2 with out := s2.out ++ bs }, none)

/-- Model of `Serializer::serialize_unit` (encode.rs:492): key, `=` when a
key was written, and nothing after it. -/
def serialize_unit (s : SerState) : SerState × Option Error :=
  match write_key s with
  | (s1, _, some e) => (s1, some e)
  | (s1, wrote, none) =>
    (if wrote then { s1 with out := s1.out ++ [0x3D] } else s1, none)

/-- Decimal digits of a `Nat` in ASCII (model of the `itoa` crate for
unsigned values); the fuel argument makes the recursion structural so
that concrete runs reduce in the kernel.  The fuel `n + 1` is always
enough since `n` loses a digit on every step. -/
def natDigitsCore : Nat → Nat → List Nat → List Nat
  | 0, _, acc => acc
  | fuel + 1, n, acc =>
    if n < 10 then (0x30 + n) :: acc
    else natDigitsCore fuel (n / 10) ((0x30 + n % 10) :: acc)

/-- ASCII decimal form of a `Nat`. -/
def natDigits (n : Nat) : List Nat :=
  natDigitsCore (n + 1) n []

/-- ASCII decimal form of an `Int` (model of the `itoa` crate for the
signed integer widths): a leading `-` for negative values. -/
def intDecimal (i : Int) : List Nat :=
  if i < 0 then 0x2D :: natDigits i.natAbs else natDigits i.toNat

example : natDigits 389384893 = codes "389384893" := by decide
example : intDecimal (-42) = codes "-42" := by decide

/-- Decoder for UTF-8 byte sequences, modelling the character iteration
of the `String` built by `String::from_utf8_unchecked` in
`SerializeMap::serialize_key` (encode.rs:681).  It is only ever applied
to valid encodings (see the round-trip lemma below); on malformed input
it produces U+FFFD and stops.  The fuel (one unit per decoded character)
keeps the recursion structural; `utf8Decode` supplies enough of it. -/
def utf8DecodeCore : Nat → List Nat → List Nat
  | 0, _ => []
  | _ + 1, [] => []
  | fuel + 1, b :: rest =>
    if b < 0x80 then b :: utf8DecodeCore fuel rest
    else if b < 0xE0 then
      if rest.length < 1 then [0xFFFD]
      else ((b - 0xC0) * 0x40 + (rest.getD 0 0 - 0x80))
        :: utf8DecodeCore fuel (rest.drop 1)
    else if b < 0xF0 then
      if rest.length < 2 then [0xFFFD]
      else ((b - 0xE0) * 0x1000 + (rest.getD 0 0 - 0x80) * 0x40 + (rest.getD 1 0 - 0x80))
        :: utf8DecodeCore fuel (rest.drop 2)
    else
      if rest.length < 3 then [0xFFFD]
      else ((b - 0xF0) * 0x40000 + (rest.getD 0 0 - 0x80) * 0x1000
          + (rest.getD 1 0 - 0x80) * 0x40 + (rest.getD 2 0 - 0x80))
        :: utf8DecodeCore fuel (rest.drop 3)

/-- UTF-8 decoding of a byte list (each decoded character consumes at
least one byte, so `l.length` units of fuel always suffice). -/
def utf8Decode (l : List Nat) : List Nat :=
  utf8DecodeCore l.length l

/-- Model of the value trees the serde data model hands to the
serializer: one constructor per `Serializer` method used by the modelled
kinds.  Tuples, tuple structs and tuple variants reuse the sequence
constructor, exactly as all four are served by `LogfmtSeqSerializer`
(encode.rs:747-825); struct variants reuse the struct constructor, as
`SerializeStructVariant` repeats `SerializeStruct` (encode.rs:630). -/
inductive Value where
  | vBool (b : Bool)
  | vInt (i : Int)
  | vStr (t : List Nat)
  | vChar (c : Nat)
  | vBytes (bs : List Nat)
  | vNone
  | vSome (v : Value)
  | vUnit
  | vUnitStruct (name : List Nat)
  | vUnitVariant (name variant : List Nat)
  | vNewtypeStruct (name : List Nat) (v : Value)
  | vNewtypeVariant (name variant : List Nat) (v : Value)
  | vSeq (elems : List Value)
  | vStruct (fields : List (List Nat × Value))
  | vMap (entries : List (Value × Value))

mutual

/-- Model of the `ser::Serializer` implementation (encode.rs:298-595):
one case per value kind, dispatching exactly as the Rust methods do. -/
def serValue : Value → SerState → SerState × Option Error
  | .vBool b, s => serialize_bool s b
  | .vInt i, s => key_eq_then s (intDecimal i)
  | .vStr t, s => serialize_str s t
  | .vChar c, s => serialize_str s [c]
  | .vBytes bs, s => serialize_str s (encode_upper bs)
  | .vNone, s => key_eq_then s [0x6E, 0x75, 0x6C, 0x6C]
  | .vSome v, s => serValue v s
  | .vUnit, s => serialize_unit s
  | .vUnitStruct _, s => serialize_unit s
  | .vUnitVariant name variant, s =>
    serialize_str s (name ++ [0x3A, 0x3A] ++ variant)
  | .vNewtypeStruct _ v, s => serValue v s
  | .vNewtypeVariant _ _ v, s => serValue v s
  | .vSeq l, s => serElems 0 l s
  | .vStruct fs, s => serFields fs s
  | .vMap es, s => serEntries es s
termination_by structural v _ => v

/-- Model of `SerializeStruct::serialize_field` (encode.rs:604) iterated
over the fields: push the field name, recurse, pop — also on failure. -/
def serFields : List (List Nat × Value) → SerState → SerState × Option Error
  | [], s => (s, none)
  | (k, v) :: rest, s =>
    match serValue v { s with ns := s.ns ++ [k] } with
    | (s2, some e) => ({ s2 with ns := s2.ns.dropLast }, some e)
    | (s2, none) => serFields rest { s2 with ns := s2.ns.dropLast }
termination_by structural fs _ => fs

/-- Model of `LogfmtSeqSerializer::serialize_element_internal`
(encode.rs:727) iterated over the elements: push the decimal index,
recurse, pop — also on failure; the index advances only after success. -/
def serElems : Nat → List Value → SerState → SerState × Option Error
  | _, [], s => (s, none)
  | idx, v :: rest, s =>
    match serValue v { s with ns := s.ns ++ [natDigits idx] } with
    | (s2, some e) => ({ s2 with ns := s2.ns.dropLast }, some e)
    | (s2, none) => serElems (idx + 1) rest { s2 with ns := s2.ns.dropLast }
termination_by structural _ l _ => l

/-- Model of `SerializeMap::serialize_entry` (encode.rs:699): encode the
key through a fresh nested serializer (encode.rs:670-685), push the
decoded text of its sink, serialize the value, pop — also on failure. -/
def serEntries : List (Value × Value) → SerState → SerState × Option Error
  | [], s => (s, none)
  | (k, v) :: rest, s =>
    match serValue k initState with
    | (_, some e) => (s, some e)
    | (ks, none) =>
      match serValue v { s with ns := s.ns ++ [utf8Decode ks.out] } with
      | (s2, some e) => ({ s2 with ns := s2.ns.dropLast }, some e)
      | (s2, none) => serEntries rest { s2 with ns := s2.ns.dropLast }
termination_by structural es _ => es

end

mutual

/-- Well-formedness of a modelled value tree: every text is a list of
Unicode scalar values (as Rust's `char`/`str` guarantee) and every byte
is below 256 (as Rust's `u8` guarantees). -/
def validValue : Value → Bool
  | .vBool _ => true
  | .vInt _ => true
  | .vStr t => t.all isScalar
  | .vChar c => isScalar c
  | .vBytes bs => bs.all (fun b => b < 0x100)
  | .vNone => true
  | .vSome v => validValue v
  | .vUnit => true
  | .vUnitStruct _ => true
  | .vUnitVariant name variant => name.all isScalar && variant.all isScalar
  | .vNewtypeStruct _ v => validValue v
  | .vNewtypeVariant _ _ v => validValue v
  | .vSeq l => validElems l
  | .vStruct fs => validFields fs
  | .vMap es => validEntries es
termination_by structural v => v

/-- Well-formedness of struct fields: scalar field names, valid values. -/
def validFields : List (List Nat × Value) → Bool
  | [] => true
  | (k, v) :: rest => k.all isScalar && validValue v && validFields rest
termination_by structural fs => fs

/-- Well-formedness of sequence elements. -/
def validElems : List Value → Bool
  | [] => true
  | v :: rest => validValue v && validElems rest
termination_by structural l => l

/-- Well-formedness of map entries. -/
def validEntries : List (Value × Value) → Bool
  | [] => true
  | (k, v) :: rest => validValue k && validValue v && validEntries rest
termination_by structural es => es

end

/-- Every segment on the namespace stack consists of Unicode scalar
values, as the Rust `Vec<String>` guarantees by construction. -/
def nsScalar (s : SerState) : Bool :=
  s.ns.all (fun seg => seg.all isScalar)

/-- The byte list is the UTF-8 encoding of some sequence of Unicode
scalar values — i.e. it is valid UTF-8. -/
def Utf8Encodes (l : List Nat) : Prop :=
  ∃ cs : List Nat, (∀ c ∈ cs, isScalar c = true) ∧ l = (cs.map encodeUtf8).flatten

/-- The value of the `serialize_struct` test in lib.rs:85. -/
def exStruct : Value :=
  .vStruct
    [(codes "message", .vStr (codes "hello world")),
     (codes "integer", .vInt 3829),
     (codes "enum_val", .vUnitVariant (codes "MyEnum") (codes "Variant2")),
     (codes "b", .vBytes [0xFF, 0x01, 0x43, 0x64]),
     (codes "nums", .vSeq [.vInt 1, .vInt 2, .vInt 3, .vInt 4]),
     (codes "my_map", .vMap [(.vInt 33, .vBool true), (.vInt 34, .vBool false)])]

example :
    (serValue exStruct initState).1.out
      = codes "message=\"hello world\" integer=3829 enum_val=MyEnum::Variant2 b=FF014364 nums.0=1 nums.1=2 nums.2=3 nums.3=4 my_map.33"
      ∧ (serValue exStruct initState).2 = none := by
  decide

theorem identLoop_eq (l pending : List Nat) :
    identLoop pending l = (pending.map encodeUtf8).flatten ++ identBody l := by
  induction l generalizing pending with
  | nil => simp [identLoop, identBody]
  | cons c rest ih =>
    by_cases h : valid_in_ident c
    · simp [identLoop, identBody, h, ih (pending ++ [c])]
    · simp [identLoop, identBody, h, ih []]

theorem escBody_cons_valid (c : Nat) (rest : List Nat) (h : valid_in_string c = true) :
    escBody (c :: rest) = encodeUtf8 c ++ escBody rest := by
  rw [escBody.eq_def]; simp [h]

theorem escBody_cons_pair (c c2 : Nat) (rest : List Nat) (h : ¬ valid_in_string c = true)
    (h2 : c = 0x5C) (h3 : is_valid_escape c2 = true) :
    escBody (c :: c2 :: rest) = encodeUtf8 c ++ encodeUtf8 c2 ++ escBody rest := by
  subst h2
  rw [escBody.eq_def]; simp [h, h3, peekEscape]

theorem escBody_cons_esc (c : Nat) (rest : List Nat) (h : ¬ valid_in_string c = true)
    (h2 : ¬ (c = 0x5C ∧ peekEscape rest = true)) :
    escBody (c :: rest) = (write_escape c).getD [] ++ escBody rest := by
  rw [escBody.eq_def]
  simp only [h, if_false, Bool.and_eq_true, decide_eq_true_eq]
  simp [h2]

theorem valLoop_eq (pending l : List Nat) :
    valLoop pending l = (pending.map encodeUtf8).flatten ++ escBody l := by
  induction pending, l using valLoop.induct with
  | case1 pending => rw [valLoop.eq_def]; simp [escBody]
  | case2 pending c rest h ih =>
    rw [valLoop.eq_def, escBody_cons_valid c rest h]
    simp [h, ih]
  | case3 pending c h c2 tail h2 ih =>
    have hp : c = 0x5C ∧ is_valid_escape c2 = true := by
      simpa [peekEscape] using h2
    obtain ⟨hc, h3⟩ := hp
    subst hc
    rw [valLoop.eq_def, escBody_cons_pair 0x5C c2 tail h rfl h3]
    simp [h, h3, peekEscape, ih]
  | case4 pending c h h2 => simp [peekEscape] at h2
  | case5 pending c rest h h2 ih =>
    rw [valLoop.eq_def, escBody_cons_esc c rest h (by simpa using h2)]
    simp [h, h2, ih]

theorem as_control_picture_low (c : Nat) (h : c ≤ 0x20) :
    as_control_picture c = some (0x2400 + c) := by
  interval_cases c <;> rfl

theorem as_control_picture_del : as_control_picture 0x7F = some 0x2421 := rfl

theorem as_control_picture_some (c : Nat) (h : c ≤ 0x1F ∨ c = 0x7F) :
    (as_control_picture c).isSome = true := by
  rcases h with h | h
  · rw [as_control_picture_low c (by omega)]; rfl
  · subst h; rfl

theorem write_escape_isSome (c : Nat) : (write_escape c).isSome = true := by
  unfold write_escape
  split_ifs with h1 h2 h3 h4 h5 h6 h7 <;>
    first
    | rfl
    | · have hs := as_control_picture_some c (by simpa using h5)
        cases ho : as_control_picture c with
        | none => rw [ho] at hs; simp at hs
        | some p => rfl

theorem identBody_all_valid (l : List Nat) (h : l.all valid_in_ident = true) :
    identBody l = (l.map encodeUtf8).flatten := by
  induction l with
  | nil => rfl
  | cons c rest ih =>
    simp only [List.all_cons, Bool.and_eq_true] at h
    simp [identBody, h.1, ih h.2]

theorem is_valid_escape_lt (c : Nat) (h : is_valid_escape c = true) : c < 0x80 := by
  simp only [is_valid_escape, Bool.or_eq_true, beq_iff_eq] at h
  rcases h with h | h | h | h | h | h | h | h <;> omega

theorem encodeUtf8_ascii (c : Nat) (h : c < 0x80) : encodeUtf8 c = [c] := by
  simp [encodeUtf8, h]

/-- C1: `write_val` on empty input writes nothing at all; on input whose
characters all satisfy `valid_in_ident` it defers to the identifier
encoder `write_ident`; on any other input it writes the escaped body
wrapped in double quotes. -/
theorem claim_C1 :
    write_val [] = .ok []
    ∧ (∀ l, l ≠ [] → l.all valid_in_ident = true → write_val l = write_ident l)
    ∧ (∀ l, l ≠ [] → l.all valid_in_ident = false →
        write_val l = .ok (0x22 :: (escBody l ++ [0x22]))) := by
  refine ⟨rfl, fun l h hv => ?_, fun l h hv => ?_⟩
  · simp [write_val, h, hv]
  · simp [write_val, h, hv, valLoop_eq]

/-- Witness for C1 at `"a@b"` (all identifier-valid, unquoted) and
`"a b"` (contains a space, quoted). -/
theorem claim_C1_witness :
    write_val (codes "a@b") = write_ident (codes "a@b")
    ∧ write_val (codes "a b") = .ok (0x22 :: (escBody (codes "a b") ++ [0x22])) :=
  ⟨claim_C1.2.1 (codes "a@b") (by decide) (by decide),
   claim_C1.2.2 (codes "a b") (by decide) (by decide)⟩

/-- C2: `write_escape` maps NUL, LF, TAB, CR, backslash and quote to their
two-character escapes, every other C0 control and DEL to its U+2400-block
control picture, and any other character to its raw form. -/
theorem claim_C2 :
    write_escape 0x00 = some (codes "\\0")
    ∧ write_escape 0x0A = some (codes "\\n")
    ∧ write_escape 0x09 = some (codes "\\t")
    ∧ write_escape 0x0D = some (codes "\\r")
    ∧ write_escape 0x5C = some (codes "\\\\")
    ∧ write_escape 0x22 = some (codes "\\\"")
    ∧ (∀ c, c ≤ 0x1F → c ≠ 0x00 → c ≠ 0x0A → c ≠ 0x09 → c ≠ 0x0D →
        write_escape c = some (encodeUtf8 (0x2400 + c)))
    ∧ write_escape 0x7F = some (encodeUtf8 0x2421)
    ∧ (∀ c, 0x1F < c → c ≠ 0x22 → c ≠ 0x5C → c ≠ 0x7F →
        write_escape c = some (encodeUtf8 c)) := by
  refine ⟨by decide, by decide, by decide, by decide, by decide, by decide, ?_,
    by decide, ?_⟩
  · intro c h h0 hA h9 hD
    interval_cases c <;>
      first
      | rfl
      | exact absurd rfl h0
      | exact absurd rfl hA
      | exact absurd rfl h9
      | exact absurd rfl hD
  · intro c h h22 h5C h7F
    unfold write_escape
    split_ifs with h1 h2 h3 h4 h5
    · exfalso; omega
    · exfalso; omega
    · exfalso; omega
    · exfalso; omega
    · exfalso; simp only [Bool.or_eq_true, decide_eq_true_eq] at h5; omega
    · rfl

/-- Witness for C2 at U+0001 (control picture) and at the letter A (raw). -/
theorem claim_C2_witness :
    write_escape 0x01 = some (encodeUtf8 (0x2400 + 0x01))
    ∧ write_escape 0x41 = some (encodeUtf8 0x41) :=
  ⟨claim_C2.2.2.2.2.2.2.1 0x01 (by decide) (by decide) (by decide) (by decide) (by decide),
   claim_C2.2.2.2.2.2.2.2.2 0x41 (by decide) (by decide) (by decide) (by decide)⟩

/-- C3: in the quoted path, a backslash followed by one of
`n,0,t,r,\,",x,u` is copied through unchanged as those two characters —
both in the per-character body and in the batching loop of `write_val`,
where the pair simply joins the pending verbatim run; nothing checks
that an `x` or `u` form is complete or well-formed (the tail is
arbitrary, even empty). -/
theorem claim_C3 :
    (∀ c rest, is_valid_escape c = true →
      escBody (0x5C :: c :: rest) = 0x5C :: c :: escBody rest)
    ∧ (∀ pending c rest, is_valid_escape c = true →
      valLoop pending (0x5C :: c :: rest) = valLoop (pending ++ [0x5C, c]) rest) := by
  constructor
  · intro c rest h
    rw [escBody_cons_pair 0x5C c rest (by decide) rfl h]
    rw [encodeUtf8_ascii 0x5C (by omega), encodeUtf8_ascii c (is_valid_escape_lt c h)]
    rfl
  · intro pending c rest h
    rw [valLoop.eq_def]
    simp [peekEscape, h, valid_in_string]

/-- Witness for C3 at a trailing `\x` with nothing after it. -/
theorem claim_C3_witness :
    escBody [0x5C, 0x78] = 0x5C :: 0x78 :: escBody []
    ∧ valLoop [] [0x5C, 0x78] = valLoop ([] ++ [0x5C, 0x78]) [] :=
  ⟨claim_C3.1 0x78 [] (by decide), claim_C3.2 [] 0x78 [] (by decide)⟩

/-- C4: `write_ident` fails with `EmptyIdentifier` exactly on empty input
(and on nothing else); otherwise it emits, character by character, the
character itself when identifier-valid and `%`-hex of each UTF-8 byte
when not, so an all-valid segment passes through unchanged,
`"has spaces"` becomes `has%20spaces` and `"with=equals"` becomes
`with%3Dequals`. -/
theorem claim_C4 :
    write_ident [] = .error .EmptyIdentifier
    ∧ (∀ l, l ≠ [] → write_ident l = .ok (identBody l))
    ∧ (∀ l, l ≠ [] → l.all valid_in_ident = true →
        write_ident l = .ok ((l.map encodeUtf8).flatten))
    ∧ write_ident (codes "has spaces") = .ok (codes "has%20spaces")
    ∧ write_ident (codes "with=equals") = .ok (codes "with%3Dequals") := by
  refine ⟨rfl, fun l h => ?_, fun l h hv => ?_, by decide, by decide⟩
  · simp [write_ident, h, identLoop_eq]
  · simp [write_ident, h, identLoop_eq, identBody_all_valid l hv]

/-- Witness for C4 at the one-character identifier `h`. -/
theorem claim_C4_witness :
    write_ident [0x68] = .ok (identBody [0x68])
    ∧ write_ident [0x68] = .ok (([0x68].map encodeUtf8).flatten) :=
  ⟨claim_C4.2.1 [0x68] (by decide), claim_C4.2.2.1 [0x68] (by decide) (by decide)⟩

/-- C10: the `expect` inside `write_escape` can never fire:
`as_control_picture` returns `some` for every character in
U+0000..U+001F and for U+007F (the only characters that reach that match
arm), and consequently `write_escape` — whose `none` result models the
panic — is total on all inputs. -/
theorem claim_C10 :
    (∀ c, c ≤ 0x1F ∨ c = 0x7F → (as_control_picture c).isSome = true)
    ∧ (∀ c, (write_escape c).isSome = true) :=
  ⟨as_control_picture_some, write_escape_isSome⟩

/-- Witness for C10 at U+0001. -/
theorem claim_C10_witness : (as_control_picture 0x01).isSome = true :=
  claim_C10.1 0x01 (Or.inl (by decide))

theorem write_key_ns (s : SerState) : ((write_key s).1).ns = s.ns := by
  unfold write_key
  by_cases hw : s.have_written <;> simp [hw] <;> split <;> simp

theorem write_key_hw (s : SerState) : ((write_key s).1).have_written = true := by
  unfold write_key
  by_cases hw : s.have_written <;> simp [hw] <;> split <;> simp [hw]

theorem key_eq_then_ns (s : SerState) (bs : List Nat) :
    ((key_eq_then s bs).1).ns = s.ns := by
  have h1 := write_key_ns s
  rcases hk : write_key s with ⟨s1, b, e⟩
  rw [hk] at h1
  rcases e with _ | e
  · rcases b <;> simp [key_eq_then, hk] <;> exact h1
  · simp [key_eq_then, hk]; exact h1

theorem serialize_str_ns (s : SerState) (v : List Nat) :
    ((serialize_str s v).1).ns = s.ns := by
  have h1 := write_key_ns s
  rcases hk : write_key s with ⟨s1, b, e⟩
  rw [hk] at h1
  rcases e with _ | e
  · rcases hv : write_val v with e2 | bs
    · rcases b <;> simp [serialize_str, hk, hv] <;> exact h1
    · rcases b <;> simp [serialize_str, hk, hv] <;> exact h1
  · simp [serialize_str, hk]; exact h1

theorem serialize_unit_ns (s : SerState) :
    ((serialize_unit s).1).ns = s.ns := by
  have h1 := write_key_ns s
  rcases hk : write_key s with ⟨s1, b, e⟩
  rw [hk] at h1
  rcases e with _ | e
  · rcases b <;> simp [serialize_unit, hk] <;> exact h1
  · simp [serialize_unit, hk]; exact h1

theorem serialize_bool_ns (s : SerState) (b : Bool) :
    ((serialize_bool s b).1).ns = s.ns := by
  rcases b
  · simp [serialize_bool]
  · have h1 := write_key_ns s
    rcases hk : write_key s with ⟨s1, b2, e⟩
    rw [hk] at h1
    simp [serialize_bool, hk]
    exact h1

theorem serValue_ns : ∀ v s, ((serValue v s).1).ns = s.ns := by
  apply serValue.induct
    (fun v s => ((serValue v s).1).ns = s.ns)
    (fun es s => ((serEntries es s).1).ns = s.ns)
    (fun fs s => ((serFields fs s).1).ns = s.ns)
    (fun idx l s => ((serElems idx l s).1).ns = s.ns)
  · intro b s; simp [serValue, serialize_bool_ns]
  · intro i s; simp [serValue, key_eq_then_ns]
  · intro t s; simp [serValue, serialize_str_ns]
  · intro c s; simp [serValue, serialize_str_ns]
  · intro bs s; simp [serValue, serialize_str_ns]
  · intro s; simp [serValue, key_eq_then_ns]
  · intro v s ih; exact ih
  · intro s; simp [serValue, serialize_unit_ns]
  · intro name s; simp [serValue, serialize_unit_ns]
  · intro name variant s; simp [serValue, serialize_str_ns]
  · intro name v s ih; exact ih
  · intro name variant v s ih; exact ih
  · intro l s ih; exact ih
  · intro fs s ih; exact ih
  · intro es s ih; exact ih
  · intro x s; simp [serElems]
  · intro idx v rest s s2 e heq ih
    rw [heq] at ih
    simp at ih
    simp [serElems, heq, ih]
  · intro idx v rest s s2 heq ih ih2
    rw [heq] at ih
    simp at ih
    simp [ih] at ih2
    simp [serElems, heq, ih, ih2]
  · intro s; simp [serFields]
  · intro k v rest s s2 e heq ih
    rw [heq] at ih
    simp at ih
    simp [serFields, heq, ih]
  · intro k v rest s s2 heq ih ih2
    rw [heq] at ih
    simp at ih
    simp [ih] at ih2
    simp [serFields, heq, ih, ih2]
  · intro s; simp [serEntries]
  · intro k v rest s s2 e heq ih
    simp [serEntries, heq]
  · intro k v rest s s2 heq s2b e heq2 ihk ihv
    rw [heq2] at ihv
    simp at ihv
    simp [serEntries, heq, heq2, ihv]
  · intro k v rest s s2 heq s2b heq2 ihk ihv ih2
    rw [heq2] at ihv
    simp at ihv
    simp [ihv] at ih2
    simp [serEntries, heq, heq2, ihv, ih2]

/-- C7: serializing any value leaves the namespace stack exactly as it
found it — each container push is matched by a pop, also on the error
path — so after a top-level run the stack is empty even when an error
surfaces; the last conjunct runs the failing input `vStruct [("", 0)]`
(an empty field name) and shows the error surfaces with an empty stack. -/
theorem claim_C7 :
    (∀ v s, ((serValue v s).1).ns = s.ns)
    ∧ (∀ v, ((serValue v initState).1).ns = [])
    ∧ serValue (.vStruct [([], .vInt 0)]) initState
        = ({ out := [], ns := [], have_written := true }, some .EmptyIdentifier) := by
  refine ⟨serValue_ns, fun v => serValue_ns v initState, by decide⟩

/-- Witness for C7 at a two-level nesting with a non-trivial starting
stack. -/
theorem claim_C7_witness :
    ((serValue (.vStruct [(codes "a", .vSeq [.vInt 1])])
        { out := [], ns := [codes "p"], have_written := false }).1).ns = [codes "p"] :=
  claim_C7.1 (.vStruct [(codes "a", .vSeq [.vInt 1])])
    { out := [], ns := [codes "p"], have_written := false }

/-- C5 counterexample: a unit value under the one-segment namespace `k`
emits `k=` — with a trailing `=` — which differs from the bare key `k`
that the claim promises (and that boolean `true` actually produces). -/
theorem claim_C5_counterexample :
    (serValue .vUnit { out := [], ns := [[0x6B]], have_written := false }).1.out
      = codes "k="
    ∧ (serValue (.vBool true) { out := [], ns := [[0x6B]], have_written := false }).1.out
      = codes "k"
    ∧ codes "k=" ≠ codes "k" := by
  decide

/-- C5 amended: a unit value or unit struct under a non-empty namespace
emits the key followed by `=` and no value after it — textually the
same as an empty-string value, not as a bare key. -/
theorem claim_C5_amended :
    (∀ name s, serValue (.vUnitStruct name) s = serValue .vUnit s)
    ∧ (∀ s, serValue .vUnit s = serValue (.vStr []) s)
    ∧ (serValue .vUnit { out := [], ns := [[0x6B]], have_written := false }).1.out
      = codes "k=" := by
  refine ⟨fun name s => rfl, fun s => ?_, by decide⟩
  show serialize_unit s = serialize_str s []
  rcases hk : write_key s with ⟨s1, b, e⟩
  rcases e with _ | e
  · rcases b <;> simp [serialize_unit, serialize_str, hk, write_val]
  · simp [serialize_unit, serialize_str, hk]

/-- C8: boolean `false` writes nothing at all and leaves the state
untouched; boolean `true` writes the key alone (no `=`, no value); a
struct with a `false` field then a `true` field yields only the second
key with no extra space. -/
theorem claim_C8 :
    (∀ s, serValue (.vBool false) s = (s, none))
    ∧ (∀ out k, k ≠ [] → k.all valid_in_ident = true →
        serValue (.vBool true) { out := out, ns := [k], have_written := false }
          = ({ out := out ++ (k.map encodeUtf8).flatten, ns := [k],
               have_written := true }, none))
    ∧ (serValue (.vStruct [(codes "f", .vBool false), (codes "t", .vBool true)])
        initState).1.out = codes "t" := by
  refine ⟨fun s => rfl, fun out k h hv => ?_, by decide⟩
  show serialize_bool _ true = _
  simp [serialize_bool, write_key, write_segs, write_ident, h,
    identLoop_eq, identBody_all_valid k hv]

/-- Witness for C8 at the key `k`. -/
theorem claim_C8_witness :
    serValue (.vBool true) { out := [], ns := [[0x6B]], have_written := false }
      = ({ out := [] ++ (([0x6B] : List Nat).map encodeUtf8).flatten, ns := [[0x6B]],
           have_written := true }, none) :=
  claim_C8.2.1 [] [0x6B] (by decide) (by decide)

/-- C9: an enum newtype variant serializes exactly as the wrapped value
alone at the same state — the variant tag is discarded — and the
repository's own example `enum_val=Variant3(389384893)` therefore prints
`enum_val=389384893`. -/
theorem claim_C9 :
    (∀ name variant v s, serValue (.vNewtypeVariant name variant v) s = serValue v s)
    ∧ (serValue (.vStruct [(codes "enum_val",
        .vNewtypeVariant (codes "MyEnum") (codes "Variant3") (.vInt 389384893))])
        initState).1.out = codes "enum_val=389384893" := by
  exact ⟨fun name variant v s => rfl, by decide⟩

theorem utf8Encodes_nil : Utf8Encodes [] :=
  ⟨[], by simp, rfl⟩

theorem utf8Encodes_append {a b : List Nat} (ha : Utf8Encodes a) (hb : Utf8Encodes b) :
    Utf8Encodes (a ++ b) := by
  obtain ⟨cs, hcs, rfl⟩ := ha
  obtain ⟨ds, hds, rfl⟩ := hb
  refine ⟨cs ++ ds, ?_, by simp⟩
  intro c hc
  rcases List.mem_append.mp hc with h | h
  · exact hcs c h
  · exact hds c h

theorem utf8Encodes_encode {c : Nat} (h : isScalar c = true) :
    Utf8Encodes (encodeUtf8 c) :=
  ⟨[c], by simpa using h, by simp⟩

theorem utf8Encodes_ascii {l : List Nat} (h : ∀ b ∈ l, b < 0x80) :
    Utf8Encodes l := by
  refine ⟨l, fun c hc => ?_, ?_⟩
  · have := h c hc
    simp [isScalar]; omega
  · induction l with
    | nil => rfl
    | cons b rest ih =>
      have hb := h b (by simp)
      simp only [List.map_cons, List.flatten_cons]
      rw [encodeUtf8_ascii b hb, ← ih (fun x hx => h x (by simp [hx]))]
      rfl

theorem isScalar_lt {c : Nat} (h : isScalar c = true) : c < 0x110000 := by
  simp [isScalar] at h
  exact h.1

theorem encodeUtf8_bytes_lt {c : Nat} (h : c < 0x110000) :
    ∀ b ∈ encodeUtf8 c, b < 0x100 := by
  intro b hb
  unfold encodeUtf8 at hb
  split_ifs at hb <;> simp at hb <;> omega

theorem hexDigitU_lt {n : Nat} (h : n < 16) : hexDigitU n < 0x80 := by
  unfold hexDigitU
  split_ifs <;> omega

theorem pctChunk_ascii {c : Nat} (h : c < 0x110000) :
    ∀ b ∈ ((encodeUtf8 c).map (fun b => 0x25 :: encode_byte_u b)).flatten, b < 0x80 := by
  intro b hb
  simp only [List.mem_flatten, List.mem_map] at hb
  obtain ⟨l, ⟨x, hx, rfl⟩, hbl⟩ := hb
  have hx256 := encodeUtf8_bytes_lt h x hx
  simp only [encode_byte_u, List.mem_cons, List.mem_singleton] at hbl
  rcases hbl with rfl | rfl | rfl | hbl
  · omega
  · exact hexDigitU_lt (by omega)
  · exact hexDigitU_lt (by omega)
  · simp at hbl

theorem utf8Encodes_identBody {l : List Nat} (h : ∀ c ∈ l, isScalar c = true) :
    Utf8Encodes (identBody l) := by
  induction l with
  | nil => exact utf8Encodes_nil
  | cons c rest ih =>
    have hc := h c (by simp)
    have hrest := ih (fun x hx => h x (by simp [hx]))
    rw [identBody]
    refine utf8Encodes_append ?_ hrest
    split_ifs
    · exact utf8Encodes_encode hc
    · exact utf8Encodes_ascii (pctChunk_ascii (isScalar_lt hc))

theorem utf8Encodes_escape {c : Nat} (h : isScalar c = true) :
    Utf8Encodes ((write_escape c).getD []) := by
  unfold write_escape
  split_ifs with h1 h2 h3 h4 h5 h6 h7
  · exact utf8Encodes_ascii (by decide)
  · exact utf8Encodes_ascii (by decide)
  · exact utf8Encodes_ascii (by decide)
  · exact utf8Encodes_ascii (by decide)
  · simp only [Bool.or_eq_true, decide_eq_true_eq] at h5
    rcases h5 with h5 | h5
    · rw [as_control_picture_low c (by omega)]
      exact utf8Encodes_encode (by simp [isScalar]; omega)
    · subst h5
      rw [as_control_picture_del]
      exact utf8Encodes_encode (by decide)
  · exact utf8Encodes_ascii (by decide)
  · exact utf8Encodes_ascii (by decide)
  · exact utf8Encodes_encode h

theorem utf8Encodes_escBody : ∀ l, (∀ c ∈ l, isScalar c = true) →
    Utf8Encodes (escBody l) := by
  intro l
  induction l using escBody.induct with
  | case1 => exact fun _ => utf8Encodes_nil
  | case2 c rest h ih =>
    intro hs
    rw [escBody_cons_valid c rest h]
    exact utf8Encodes_append (utf8Encodes_encode (hs c (by simp)))
      (ih (fun x hx => hs x (by simp [hx])))
  | case3 c h c2 tail h2 ih =>
    intro hs
    have hp : c = 0x5C ∧ is_valid_escape c2 = true := by simpa [peekEscape] using h2
    rw [escBody_cons_pair c c2 tail h hp.1 hp.2]
    refine utf8Encodes_append
      (utf8Encodes_append (utf8Encodes_encode (hs c (by simp)))
        (utf8Encodes_encode (hs c2 (by simp))))
      (ih (fun x hx => hs x (by simp [hx])))
  | case4 c h h2 => intro hs; simp [peekEscape] at h2
  | case5 c rest h h2 ih =>
    intro hs
    rw [escBody_cons_esc c rest h (by simpa using h2)]
    exact utf8Encodes_append (utf8Encodes_escape (hs c (by simp)))
      (ih (fun x hx => hs x (by simp [hx])))

theorem utf8Encodes_write_ident {l : List Nat} (h : ∀ c ∈ l, isScalar c = true)
    {bs : List Nat} (hw : write_ident l = .ok bs) : Utf8Encodes bs := by
  unfold write_ident at hw
  split_ifs at hw
  cases hw
  rw [identLoop_eq]
  simpa using utf8Encodes_identBody h

theorem utf8Encodes_write_val {v : List Nat} (h : ∀ c ∈ v, isScalar c = true)
    {bs : List Nat} (hw : write_val v = .ok bs) : Utf8Encodes bs := by
  unfold write_val at hw
  split_ifs at hw
  · cases hw; exact utf8Encodes_nil
  · exact utf8Encodes_write_ident h hw
  · cases hw
    rw [valLoop_eq]
    simp only [List.map_nil, List.flatten_nil, List.nil_append]
    show Utf8Encodes ([0x22] ++ (escBody v ++ [0x22]))
    exact utf8Encodes_append (utf8Encodes_ascii (by decide))
      (utf8Encodes_append (utf8Encodes_escBody v h)
        (utf8Encodes_ascii (by decide)))

theorem natDigitsCore_ascii : ∀ fuel n acc, (∀ b ∈ acc, b < 0x80) →
    ∀ b ∈ natDigitsCore fuel n acc, b < 0x80 := by
  intro fuel
  induction fuel with
  | zero => intro n acc hacc b hb; exact hacc b hb
  | succ fuel ih =>
    intro n acc hacc b hb
    rw [natDigitsCore] at hb
    split_ifs at hb with h
    · rcases List.mem_cons.mp hb with rfl | hb
      · omega
      · exact hacc b hb
    · refine ih (n / 10) _ ?_ b hb
      intro x hx
      rcases List.mem_cons.mp hx with rfl | hx
      · omega
      · exact hacc x hx

theorem natDigits_ascii (n : Nat) : ∀ b ∈ natDigits n, b < 0x80 :=
  natDigitsCore_ascii (n + 1) n [] (by simp)

theorem intDecimal_ascii (i : Int) : ∀ b ∈ intDecimal i, b < 0x80 := by
  unfold intDecimal
  split_ifs
  · intro b hb
    rcases List.mem_cons.mp hb with rfl | hb
    · omega
    · exact natDigits_ascii _ b hb
  · exact natDigits_ascii _

theorem ascii_isScalar {b : Nat} (h : b < 0x80) : isScalar b = true := by
  simp [isScalar]; omega

theorem encode_upper_ascii {bs : List Nat} (h : ∀ b ∈ bs, b < 0x100) :
    ∀ c ∈ encode_upper bs, c < 0x80 := by
  intro c hc
  simp only [encode_upper, List.mem_flatten, List.mem_map] at hc
  obtain ⟨l, ⟨x, hx, rfl⟩, hcl⟩ := hc
  have hx256 := h x hx
  simp only [encode_byte_u, List.mem_cons, List.mem_singleton] at hcl
  rcases hcl with rfl | rfl | hcl
  · exact hexDigitU_lt (by omega)
  · exact hexDigitU_lt (by omega)
  · simp at hcl

theorem nsScalar_mem {s : SerState} (h : nsScalar s = true) :
    ∀ seg ∈ s.ns, ∀ c ∈ seg, isScalar c = true := by
  intro seg hseg c hc
  simp only [nsScalar, List.all_eq_true] at h
  exact h seg hseg c hc

theorem write_segs_out (ns : List (List Nat)) (out : List Nat)
    (h : ∀ seg ∈ ns, ∀ c ∈ seg, isScalar c = true) :
    ∃ t, (write_segs out ns).1 = out ++ t ∧ Utf8Encodes t := by
  induction ns generalizing out with
  | nil => exact ⟨[], by simp [write_segs], utf8Encodes_nil⟩
  | cons seg rest ih =>
    rcases hw : write_ident seg with e | bs
    · exact ⟨[], by simp [write_segs, hw], utf8Encodes_nil⟩
    · have hbs : Utf8Encodes bs := utf8Encodes_write_ident (h seg (by simp)) hw
      rcases rest with _ | ⟨r2, rrest⟩
      · exact ⟨bs, by simp [write_segs, hw], hbs⟩
      · obtain ⟨t2, ht2, he2⟩ :=
          ih (out ++ bs ++ [0x2E])
            (fun sg hs => h sg (by simp [List.mem_cons] at hs ⊢; tauto))
        have hstep : write_segs out (seg :: r2 :: rrest)
            = write_segs (out ++ bs ++ [0x2E]) (r2 :: rrest) := by
          conv_lhs => rw [write_segs.eq_def]
          simp [hw]
        refine ⟨bs ++ [0x2E] ++ t2, ?_,
          utf8Encodes_append (utf8Encodes_append hbs
            (utf8Encodes_ascii (by decide))) he2⟩
        rw [hstep, ht2]
        simp

theorem write_key_out (s : SerState) (h : nsScalar s = true) :
    ∃ t, ((write_key s).1).out = s.out ++ t ∧ Utf8Encodes t := by
  unfold write_key
  set s1 := if s.have_written then { s with out := s.out ++ [0x20] }
            else { s with have_written := true } with hs1
  have hout : ∃ t0, s1.out = s.out ++ t0 ∧ Utf8Encodes t0 := by
    by_cases hw : s.have_written
    · exact ⟨[0x20], by simp [hs1, hw], utf8Encodes_ascii (by decide)⟩
    · exact ⟨[], by simp [hs1, hw], utf8Encodes_nil⟩
  have hns : s1.ns = s.ns := by by_cases hw : s.have_written <;> simp [hs1, hw]
  obtain ⟨t0, ht0, he0⟩ := hout
  by_cases hne : s1.ns.isEmpty
  · exact ⟨t0, by simp [hne, ht0], he0⟩
  · obtain ⟨t1, ht1, he1⟩ :=
      write_segs_out s1.ns s1.out (by rw [hns]; exact nsScalar_mem h)
    rw [ht0] at ht1
    refine ⟨t0 ++ t1, ?_, utf8Encodes_append he0 he1⟩
    simp [hne, ht1, ht0]

theorem key_eq_then_out (s : SerState) (bs : List Nat) (h : nsScalar s = true)
    (hbs : Utf8Encodes bs) :
    ∃ t, ((key_eq_then s bs).1).out = s.out ++ t ∧ Utf8Encodes t := by
  obtain ⟨t0, ht0, he0⟩ := write_key_out s h
  rcases hk : write_key s with ⟨s1, b, e⟩
  rw [hk] at ht0
  simp at ht0
  rcases e with _ | e
  · rcases b
    · exact ⟨t0 ++ bs, by simp [key_eq_then, hk, ht0],
        utf8Encodes_append he0 hbs⟩
    · refine ⟨t0 ++ [0x3D] ++ bs, by simp [key_eq_then, hk, ht0],
        utf8Encodes_append (utf8Encodes_append he0
          (utf8Encodes_ascii (by decide))) hbs⟩
  · exact ⟨t0, by simp [key_eq_then, hk, ht0], he0⟩

theorem serialize_str_out (s : SerState) (v : List Nat) (h : nsScalar s = true)
    (hv : ∀ c ∈ v, isScalar c = true) :
    ∃ t, ((serialize_str s v).1).out = s.out ++ t ∧ Utf8Encodes t := by
  obtain ⟨t0, ht0, he0⟩ := write_key_out s h
  rcases hk : write_key s with ⟨s1, b, e⟩
  rw [hk] at ht0
  simp at ht0
  rcases e with _ | e
  · rcases hw : write_val v with e2 | bs
    · rcases b
      · exact ⟨t0, by simp [serialize_str, hk, hw, ht0], he0⟩
      · exact ⟨t0 ++ [0x3D], by simp [serialize_str, hk, hw, ht0],
          utf8Encodes_append he0 (utf8Encodes_ascii (by decide))⟩
    · have hbs : Utf8Encodes bs := utf8Encodes_write_val hv hw
      rcases b
      · exact ⟨t0 ++ bs, by simp [serialize_str, hk, hw, ht0],
          utf8Encodes_append he0 hbs⟩
      · exact ⟨t0 ++ [0x3D] ++ bs, by simp [serialize_str, hk, hw, ht0],
          utf8Encodes_append (utf8Encodes_append he0
            (utf8Encodes_ascii (by decide))) hbs⟩
  · exact ⟨t0, by simp [serialize_str, hk, ht0], he0⟩

theorem serialize_unit_out (s : SerState) (h : nsScalar s = true) :
    ∃ t, ((serialize_unit s).1).out = s.out ++ t ∧ Utf8Encodes t := by
  obtain ⟨t0, ht0, he0⟩ := write_key_out s h
  rcases hk : write_key s with ⟨s1, b, e⟩
  rw [hk] at ht0
  simp at ht0
  rcases e with _ | e
  · rcases b
    · exact ⟨t0, by simp [serialize_unit, hk, ht0], he0⟩
    · exact ⟨t0 ++ [0x3D], by simp [serialize_unit, hk, ht0],
        utf8Encodes_append he0 (utf8Encodes_ascii (by decide))⟩
  · exact ⟨t0, by simp [serialize_unit, hk, ht0], he0⟩

theorem serialize_bool_out (s : SerState) (b : Bool) (h : nsScalar s = true) :
    ∃ t, ((serialize_bool s b).1).out = s.out ++ t ∧ Utf8Encodes t := by
  rcases b
  · exact ⟨[], by simp [serialize_bool], utf8Encodes_nil⟩
  · obtain ⟨t0, ht0, he0⟩ := write_key_out s h
    rcases hk : write_key s with ⟨s1, b2, e⟩
    rw [hk] at ht0
    simp at ht0
    exact ⟨t0, by simp [serialize_bool, hk, ht0], he0⟩

set_option maxRecDepth 8000 in
theorem utf8DecodeCore_encode_cons {c : Nat} (h : isScalar c = true) (fuel : Nat)
    (l : List Nat) :
    utf8DecodeCore (fuel + 1) (encodeUtf8 c ++ l) = c :: utf8DecodeCore fuel l := by
  have hc := isScalar_lt h
  unfold encodeUtf8
  split_ifs with h1 h2 h3
  · rw [List.cons_append, List.nil_append, utf8DecodeCore, if_pos h1]
  · rw [List.cons_append, List.cons_append, List.nil_append, utf8DecodeCore]
    rw [if_neg (by omega : ¬(0xC0 + c / 0x40 < 0x80)),
      if_pos (by omega : 0xC0 + c / 0x40 < 0xE0),
      if_neg (by simp : ¬((0x80 + c % 0x40) :: l).length < 1)]
    show ((0xC0 + c / 0x40 - 0xC0) * 0x40 + ((0x80 + c % 0x40) - 0x80))
        :: utf8DecodeCore fuel l = c :: utf8DecodeCore fuel l
    congr 1
    omega
  · rw [List.cons_append, List.cons_append, List.cons_append, List.nil_append,
      utf8DecodeCore]
    rw [if_neg (by omega : ¬(0xE0 + c / 0x1000 < 0x80)),
      if_neg (by omega : ¬(0xE0 + c / 0x1000 < 0xE0)),
      if_pos (by omega : 0xE0 + c / 0x1000 < 0xF0),
      if_neg (by simp :
        ¬((0x80 + c / 0x40 % 0x40) :: (0x80 + c % 0x40) :: l).length < 2)]
    show ((0xE0 + c / 0x1000 - 0xE0) * 0x1000 + ((0x80 + c / 0x40 % 0x40) - 0x80) * 0x40
        + ((0x80 + c % 0x40) - 0x80)) :: utf8DecodeCore fuel l
      = c :: utf8DecodeCore fuel l
    congr 1
    omega
  · rw [List.cons_append, List.cons_append, List.cons_append, List.cons_append,
      List.nil_append, utf8DecodeCore]
    rw [if_neg (by omega : ¬(0xF0 + c / 0x40000 < 0x80)),
      if_neg (by omega : ¬(0xF0 + c / 0x40000 < 0xE0)),
      if_neg (by omega : ¬(0xF0 + c / 0x40000 < 0xF0)),
      if_neg (by simp :
        ¬((0x80 + c / 0x1000 % 0x40) :: (0x80 + c / 0x40 % 0x40)
            :: (0x80 + c % 0x40) :: l).length < 3)]
    show ((0xF0 + c / 0x40000 - 0xF0) * 0x40000
        + ((0x80 + c / 0x1000 % 0x40) - 0x80) * 0x1000
        + ((0x80 + c / 0x40 % 0x40) - 0x80) * 0x40 + ((0x80 + c % 0x40) - 0x80))
        :: utf8DecodeCore fuel l = c :: utf8DecodeCore fuel l
    congr 1
    omega

theorem encodeUtf8_length_pos (c : Nat) : 1 ≤ (encodeUtf8 c).length := by
  unfold encodeUtf8
  split_ifs <;> simp

theorem length_le_flatten (cs : List Nat) :
    cs.length ≤ ((cs.map encodeUtf8).flatten).length := by
  induction cs with
  | nil => simp
  | cons c rest ih =>
    simp only [List.map_cons, List.flatten_cons, List.length_append, List.length_cons]
    have := encodeUtf8_length_pos c
    omega

theorem utf8DecodeCore_encode {cs : List Nat} (h : ∀ c ∈ cs, isScalar c = true) :
    ∀ fuel, cs.length ≤ fuel →
      utf8DecodeCore fuel ((cs.map encodeUtf8).flatten) = cs := by
  induction cs with
  | nil =>
    intro fuel hf
    rcases fuel with _ | f <;> simp [utf8DecodeCore]
  | cons c rest ih =>
    intro fuel hf
    rcases fuel with _ | f
    · simp at hf
    · simp only [List.map_cons, List.flatten_cons]
      rw [utf8DecodeCore_encode_cons (h c (by simp)) f,
        ih (fun x hx => h x (by simp [hx])) f (by simpa using hf)]

theorem utf8Decode_encode {cs : List Nat} (h : ∀ c ∈ cs, isScalar c = true) :
    utf8Decode ((cs.map encodeUtf8).flatten) = cs := by
  unfold utf8Decode
  exact utf8DecodeCore_encode h _ (length_le_flatten cs)

theorem utf8Encodes_decode_scalar {l : List Nat} (h : Utf8Encodes l) :
    ∀ c ∈ utf8Decode l, isScalar c = true := by
  obtain ⟨cs, hcs, rfl⟩ := h
  rw [utf8Decode_encode hcs]
  exact hcs

theorem nsScalar_push (o : List Nat) (ns : List (List Nat)) (w : Bool) (seg : List Nat)
    (h : (ns.all fun sg => sg.all isScalar) = true) (hseg : seg.all isScalar = true) :
    nsScalar ⟨o, ns ++ [seg], w⟩ = true := by
  simp [nsScalar, List.all_append, h, hseg]

theorem nsScalar_mk (o : List Nat) (ns : List (List Nat)) (w : Bool)
    (h : (ns.all fun sg => sg.all isScalar) = true) :
    nsScalar ⟨o, ns, w⟩ = true := by
  simp [nsScalar, h]

theorem serValue_out : ∀ v s, validValue v = true → nsScalar s = true →
    ∃ u, ((serValue v s).1).out = s.out ++ u ∧ Utf8Encodes u := by
  apply serValue.induct
    (fun v s => validValue v = true → nsScalar s = true →
      ∃ u, ((serValue v s).1).out = s.out ++ u ∧ Utf8Encodes u)
    (fun es s => validEntries es = true → nsScalar s = true →
      ∃ u, ((serEntries es s).1).out = s.out ++ u ∧ Utf8Encodes u)
    (fun fs s => validFields fs = true → nsScalar s = true →
      ∃ u, ((serFields fs s).1).out = s.out ++ u ∧ Utf8Encodes u)
    (fun idx l s => validElems l = true → nsScalar s = true →
      ∃ u, ((serElems idx l s).1).out = s.out ++ u ∧ Utf8Encodes u)
  · intro b s _ hns
    exact serialize_bool_out s b hns
  · intro i s _ hns
    exact key_eq_then_out s (intDecimal i) hns
      (utf8Encodes_ascii (intDecimal_ascii i))
  · intro t s hv hns
    simp only [validValue] at hv
    exact serialize_str_out s t hns (List.all_eq_true.mp hv)
  · intro c s hv hns
    simp only [validValue] at hv
    refine serialize_str_out s [c] hns ?_
    intro x hx
    rcases List.mem_singleton.mp hx with rfl
    exact hv
  · intro bs s hv hns
    simp only [validValue, List.all_eq_true, decide_eq_true_eq] at hv
    exact serialize_str_out s (encode_upper bs) hns
      (fun c hc => ascii_isScalar (encode_upper_ascii hv c hc))
  · intro s _ hns
    exact key_eq_then_out s [0x6E, 0x75, 0x6C, 0x6C] hns
      (utf8Encodes_ascii (by decide))
  · intro v s ih hv hns
    exact ih hv hns
  · intro s _ hns
    exact serialize_unit_out s hns
  · intro name s _ hns
    exact serialize_unit_out s hns
  · intro name variant s hv hns
    simp only [validValue, Bool.and_eq_true] at hv
    refine serialize_str_out s (name ++ [0x3A, 0x3A] ++ variant) hns ?_
    intro c hc
    rcases List.mem_append.mp hc with hc | hc
    · rcases List.mem_append.mp hc with hc | hc
      · exact List.all_eq_true.mp hv.1 c hc
      · simp only [List.mem_cons, List.mem_singleton] at hc
        rcases hc with rfl | rfl | hc
        · decide
        · decide
        · simp at hc
    · exact List.all_eq_true.mp hv.2 c hc
  · intro name v s ih hv hns
    exact ih hv hns
  · intro name variant v s ih hv hns
    exact ih hv hns
  · intro l s ih hv hns
    exact ih hv hns
  · intro fs s ih hv hns
    exact ih hv hns
  · intro es s ih hv hns
    exact ih hv hns
  · intro x s _ _
    exact ⟨[], by simp [serElems], utf8Encodes_nil⟩
  · intro idx v rest s s2 e heq ih hva hns
    simp only [validElems, Bool.and_eq_true] at hva
    have hdig : ((natDigits idx).all isScalar) = true := by
      rw [List.all_eq_true]
      intro b hb
      exact ascii_isScalar (natDigits_ascii idx b hb)
    have hns1 := nsScalar_push s.out s.ns s.have_written (natDigits idx)
      (by simpa [nsScalar] using hns) hdig
    obtain ⟨t1, ht1, he1⟩ := ih hva.1 hns1
    rw [heq] at ht1
    simp at ht1
    exact ⟨t1, by simp [serElems, heq, ht1], he1⟩
  · intro idx v rest s s2 heq ih ih2 hva hns
    simp only [validElems, Bool.and_eq_true] at hva
    have hdig : ((natDigits idx).all isScalar) = true := by
      rw [List.all_eq_true]
      intro b hb
      exact ascii_isScalar (natDigits_ascii idx b hb)
    have hns1 := nsScalar_push s.out s.ns s.have_written (natDigits idx)
      (by simpa [nsScalar] using hns) hdig
    obtain ⟨t1, ht1, he1⟩ := ih hva.1 hns1
    rw [heq] at ht1
    simp at ht1
    have hns2 : s2.ns = s.ns ++ [natDigits idx] := by
      have := serValue_ns v ⟨s.out, s.ns ++ [natDigits idx], s.have_written⟩
      rw [heq] at this
      simpa using this
    have hns3 := nsScalar_mk s2.out s2.ns.dropLast s2.have_written
      (by rw [hns2]; simpa [nsScalar] using hns)
    obtain ⟨t2, ht2, he2⟩ := ih2 hva.2 hns3
    simp only at ht2
    rw [ht1] at ht2
    refine ⟨t1 ++ t2, ?_, utf8Encodes_append he1 he2⟩
    simp [serElems, heq, ht1, ht2]
  · intro s _ _
    exact ⟨[], by simp [serFields], utf8Encodes_nil⟩
  · intro k v rest s s2 e heq ih hva hns
    simp only [validFields, Bool.and_eq_true] at hva
    have hns1 := nsScalar_push s.out s.ns s.have_written k
      (by simpa [nsScalar] using hns) hva.1.1
    obtain ⟨t1, ht1, he1⟩ := ih hva.1.2 hns1
    rw [heq] at ht1
    simp at ht1
    exact ⟨t1, by simp [serFields, heq, ht1], he1⟩
  · intro k v rest s s2 heq ih ih2 hva hns
    simp only [validFields, Bool.and_eq_true] at hva
    have hns1 := nsScalar_push s.out s.ns s.have_written k
      (by simpa [nsScalar] using hns) hva.1.1
    obtain ⟨t1, ht1, he1⟩ := ih hva.1.2 hns1
    rw [heq] at ht1
    simp at ht1
    have hns2 : s2.ns = s.ns ++ [k] := by
      have := serValue_ns v ⟨s.out, s.ns ++ [k], s.have_written⟩
      rw [heq] at this
      simpa using this
    have hns3 := nsScalar_mk s2.out s2.ns.dropLast s2.have_written
      (by rw [hns2]; simpa [nsScalar] using hns)
    obtain ⟨t2, ht2, he2⟩ := ih2 hva.2 hns3
    simp only at ht2
    rw [ht1] at ht2
    refine ⟨t1 ++ t2, ?_, utf8Encodes_append he1 he2⟩
    simp [serFields, heq, ht1, ht2]
  · intro s _ _
    exact ⟨[], by simp [serEntries], utf8Encodes_nil⟩
  · intro k v rest s s2 e heq ihk hva hns
    exact ⟨[], by simp [serEntries, heq], utf8Encodes_nil⟩
  · intro k v rest s s2 heq s2b e heq2 ihk ihv hva hns
    simp only [validEntries, Bool.and_eq_true] at hva
    obtain ⟨tk, htk, hek⟩ := ihk hva.1.1 (by decide)
    rw [heq] at htk
    simp [initState] at htk
    have hseg : ∀ c ∈ utf8Decode s2.out, isScalar c = true := by
      rw [htk]
      exact utf8Encodes_decode_scalar hek
    have hns1 := nsScalar_push s.out s.ns s.have_written (utf8Decode s2.out)
      (by simpa [nsScalar] using hns) (List.all_eq_true.mpr hseg)
    obtain ⟨t1, ht1, he1⟩ := ihv hva.1.2 hns1
    rw [heq2] at ht1
    simp at ht1
    exact ⟨t1, by simp [serEntries, heq, heq2, ht1], he1⟩
  · intro k v rest s s2 heq s2b heq2 ihk ihv ih2 hva hns
    simp only [validEntries, Bool.and_eq_true] at hva
    obtain ⟨tk, htk, hek⟩ := ihk hva.1.1 (by decide)
    rw [heq] at htk
    simp [initState] at htk
    have hseg : ∀ c ∈ utf8Decode s2.out, isScalar c = true := by
      rw [htk]
      exact utf8Encodes_decode_scalar hek
    have hns1 := nsScalar_push s.out s.ns s.have_written (utf8Decode s2.out)
      (by simpa [nsScalar] using hns) (List.all_eq_true.mpr hseg)
    obtain ⟨t1, ht1, he1⟩ := ihv hva.1.2 hns1
    rw [heq2] at ht1
    simp at ht1
    have hns2 : s2b.ns = s.ns ++ [utf8Decode s2.out] := by
      have := serValue_ns v ⟨s.out, s.ns ++ [utf8Decode s2.out], s.have_written⟩
      rw [heq2] at this
      simpa using this
    have hns3 := nsScalar_mk s2b.out s2b.ns.dropLast s2b.have_written
      (by rw [hns2]; simpa [nsScalar] using hns)
    obtain ⟨t2, ht2, he2⟩ := ih2 hva.2 hns3
    simp only at ht2
    rw [ht1] at ht2
    refine ⟨t1 ++ t2, ?_, utf8Encodes_append he1 he2⟩
    simp [serEntries, heq, heq2, ht1, ht2]

/-- C6: whatever a serialization run appends to the sink — on success
and on the error path alike — is the UTF-8 encoding of a sequence of
Unicode scalar values, i.e. valid UTF-8; in particular on the initially
empty sink of `to_string` / `to_bytes` the whole sink contents are valid
UTF-8, so the unchecked byte-to-string conversion in `to_string`
(lib.rs:27) never produces an invalid string. -/
theorem claim_C6 :
    (∀ v s, validValue v = true → nsScalar s = true →
      ∃ u, ((serValue v s).1).out = s.out ++ u ∧ Utf8Encodes u)
    ∧ (∀ v, validValue v = true → Utf8Encodes ((serValue v initState).1).out) := by
  refine ⟨serValue_out, fun v hv => ?_⟩
  obtain ⟨u, hu, he⟩ := serValue_out v initState hv (by decide)
  rw [hu]
  simpa using he

/-- Witness for C6 at the repository's own end-to-end test value. -/
theorem claim_C6_witness :
    validValue exStruct = true ∧ nsScalar initState = true
    ∧ Utf8Encodes ((serValue exStruct initState).1).out :=
  ⟨by decide, by decide, claim_C6.2 exStruct (by decide)⟩

end Alogfmt
